import Mathlib

/-!
Verification of the MAD4PG trainer core (`agent.py`).

The numerical routines are embedded over `ℚ` (the source computes with
floating-point tensors; the spec's properties are the exact-arithmetic
ones, and every batch operation in the source acts independently per
sample, so the embedding is per-sample).  The exploration-annealing
curve uses `np.exp` and is embedded over `ℝ` with `Real.exp`.
-/

/-- Fixed configuration of one `D4PG_Agent`'s distributional head:
`vmin`, `vmax`, `num_atoms`, `gamma`, `rollout` (agent.py ctor). -/
structure CatParams where
  vmin : ℚ
  vmax : ℚ
  num_atoms : ℕ
  gamma : ℚ
  rollout : ℕ

/-- `torch.linspace(vmin, vmax, num_atoms)`: the j-th atom value. -/
def atomVal (P : CatParams) (j : ℕ) : ℚ :=
  P.vmin + j * ((P.vmax - P.vmin) / ((P.num_atoms - 1 : ℕ) : ℚ))

/-- `delta_z = (vmax - vmin) / (num_atoms - 1)` (agent.py line 394). -/
def delta_z (P : CatParams) : ℚ :=
  (P.vmax - P.vmin) / ((P.num_atoms - 1 : ℕ) : ℚ)

/-- `projected_atoms = rewards + gamma**rollout * atoms * (1 - dones)`
(agent.py line 396), for one sample and the j-th atom. -/
def projectedAtom (P : CatParams) (reward done : ℚ) (j : ℕ) : ℚ :=
  reward + P.gamma ^ P.rollout * atomVal P j * (1 - done)

/-- `projected_atoms.clamp_(vmin, vmax)` (agent.py line 397);
`torch.clamp(x, lo, hi) = min(max(x, lo), hi)`. -/
def clampedAtom (P : CatParams) (reward done : ℚ) (j : ℕ) : ℚ :=
  min (max (projectedAtom P reward done j) P.vmin) P.vmax

/-- `b = (projected_atoms - vmin) / delta_z` (agent.py line 398). -/
def bFrac (P : CatParams) (reward done : ℚ) (j : ℕ) : ℚ :=
  (clampedAtom P reward done j - P.vmin) / delta_z P

/-- `torch.round`: round to nearest integer, ties to even. -/
def roundHalfEven (q : ℚ) : ℤ :=
  if q - ⌊q⌋ = 1 / 2 then (if ⌊q⌋ % 2 = 0 then ⌊q⌋ else ⌊q⌋ + 1)
  else round q

/-- `b = torch.round(b * 10**precision) / 10**precision` with
`precision = 1` (agent.py lines 407-408). -/
def bRounded (P : CatParams) (reward done : ℚ) (j : ℕ) : ℚ :=
  ((roundHalfEven (bFrac P reward done j * 10) : ℚ)) / 10

/-- `lower_bound = b.floor()` (agent.py line 409). -/
def lowerBound (P : CatParams) (reward done : ℚ) (j : ℕ) : ℤ :=
  ⌊bRounded P reward done j⌋

/-- `upper_bound = b.ceil()` (agent.py line 410). -/
def upperBound (P : CatParams) (reward done : ℚ) (j : ℕ) : ℤ :=
  ⌈bRounded P reward done j⌉

/-- `m_lower = (upper_bound + (lower_bound == upper_bound).float() - b) * probs`
(agent.py line 412), contribution of atom j to its floor bucket. -/
def mLower (P : CatParams) (reward done : ℚ) (probs : ℕ → ℚ) (j : ℕ) : ℚ :=
  ((upperBound P reward done j : ℚ) +
    (if lowerBound P reward done j = upperBound P reward done j then 1 else 0) -
    bRounded P reward done j) * probs j

/-- `m_upper = (b - lower_bound) * probs` (agent.py line 413),
contribution of atom j to its ceiling bucket. -/
def mUpper (P : CatParams) (reward done : ℚ) (probs : ℕ → ℚ) (j : ℕ) : ℚ :=
  (bRounded P reward done j - (lowerBound P reward done j : ℚ)) * probs j

/-- `_categorical` output bucket i for one sample: the additive scatter
`projected_probs[idx].index_add_(0, lower_bound, m_lower)` followed by
`index_add_(0, upper_bound, m_upper)` into a zero histogram
(agent.py lines 415-419). -/
def categorical (P : CatParams) (reward done : ℚ) (probs : ℕ → ℚ) (i : ℕ) : ℚ :=
  ∑ j ∈ Finset.range P.num_atoms,
    ((if lowerBound P reward done j = (i : ℤ) then mLower P reward done probs j else 0) +
     (if upperBound P reward done j = (i : ℤ) then mUpper P reward done probs j else 0))

-- ## Basic facts about `roundHalfEven`

lemma roundHalfEven_intCast (n : ℤ) : roundHalfEven (n : ℚ) = n := by
  unfold roundHalfEven
  rw [Int.floor_intCast]
  simp [round_intCast]

lemma floor_le_roundHalfEven (q : ℚ) : ⌊q⌋ ≤ roundHalfEven q := by
  unfold roundHalfEven
  split
  · split
    · exact le_refl _
    · omega
  · rw [round_eq]
    exact Int.floor_mono (by linarith)

lemma roundHalfEven_le_ceil (q : ℚ) : roundHalfEven q ≤ ⌈q⌉ := by
  unfold roundHalfEven
  split
  · have hq : (⌊q⌋ : ℚ) < q := by
      have : q - (⌊q⌋ : ℚ) = 1 / 2 := by assumption
      nlinarith
    have h1 : ⌊q⌋ + 1 ≤ ⌈q⌉ := by
      have h2 : (⌊q⌋ : ℚ) < (⌈q⌉ : ℚ) := lt_of_lt_of_le hq (Int.le_ceil q)
      exact_mod_cast Int.add_one_le_iff.mpr (by exact_mod_cast h2)
    split
    · omega
    · omega
  · rw [round_eq]
    have h3 : q + 1 / 2 < (⌈q⌉ : ℚ) + 1 := by
      have := Int.le_ceil q
      linarith
    have h4 : ⌊q + 1 / 2⌋ < ⌈q⌉ + 1 := Int.floor_lt.mpr (by exact_mod_cast h3)
    omega

-- ## Bounds on the bucket indices

lemma delta_z_pos (P : CatParams) (hN : 2 ≤ P.num_atoms) (hv : P.vmin < P.vmax) :
    0 < delta_z P := by
  unfold delta_z
  apply div_pos (by linarith)
  have : (1 : ℕ) ≤ P.num_atoms - 1 := by omega
  exact_mod_cast Nat.lt_of_lt_of_le Nat.zero_lt_one this

lemma clampedAtom_mem (P : CatParams) (reward done : ℚ) (j : ℕ)
    (hv : P.vmin ≤ P.vmax) :
    P.vmin ≤ clampedAtom P reward done j ∧ clampedAtom P reward done j ≤ P.vmax := by
  unfold clampedAtom
  constructor
  · exact le_min (le_max_right _ _) hv
  · exact min_le_right _ _

lemma bFrac_mem (P : CatParams) (reward done : ℚ) (j : ℕ)
    (hN : 2 ≤ P.num_atoms) (hv : P.vmin < P.vmax) :
    0 ≤ bFrac P reward done j ∧
      bFrac P reward done j ≤ ((P.num_atoms - 1 : ℕ) : ℚ) := by
  obtain ⟨h1, h2⟩ := clampedAtom_mem P reward done j (le_of_lt hv)
  have hdz := delta_z_pos P hN hv
  constructor
  · exact div_nonneg (by linarith) (le_of_lt hdz)
  · unfold bFrac
    have key : (P.vmax - P.vmin) / delta_z P = ((P.num_atoms - 1 : ℕ) : ℚ) := by
      have hd : ((P.num_atoms - 1 : ℕ) : ℚ) ≠ 0 := by
        have : (1 : ℕ) ≤ P.num_atoms - 1 := by omega
        positivity
      unfold delta_z
      field_simp
      rw [mul_comm, mul_div_cancel_right₀ _ (sub_ne_zero.mpr (ne_of_gt hv))]
    calc (clampedAtom P reward done j - P.vmin) / delta_z P
        ≤ (P.vmax - P.vmin) / delta_z P :=
          div_le_div_of_nonneg_right (by linarith) (le_of_lt hdz)
      _ = ((P.num_atoms - 1 : ℕ) : ℚ) := key

lemma bRounded_mem (P : CatParams) (reward done : ℚ) (j : ℕ)
    (hN : 2 ≤ P.num_atoms) (hv : P.vmin < P.vmax) :
    0 ≤ bRounded P reward done j ∧
      bRounded P reward done j ≤ ((P.num_atoms - 1 : ℕ) : ℚ) := by
  obtain ⟨h1, h2⟩ := bFrac_mem P reward done j hN hv
  set q := bFrac P reward done j * 10 with hq
  have hq0 : (0 : ℚ) ≤ q := by positivity
  have hqN : q ≤ ((10 * (P.num_atoms - 1) : ℕ) : ℚ) := by
    push_cast
    nlinarith
  have hlo : (0 : ℤ) ≤ roundHalfEven q := by
    have : (0 : ℤ) ≤ ⌊q⌋ := Int.le_floor.mpr (by exact_mod_cast hq0)
    exact le_trans this (floor_le_roundHalfEven q)
  have hhi : roundHalfEven q ≤ ((10 * (P.num_atoms - 1) : ℕ) : ℤ) := by
    refine le_trans (roundHalfEven_le_ceil q) ?_
    exact Int.ceil_le.mpr (by exact_mod_cast hqN)
  unfold bRounded
  rw [← hq]
  constructor
  · positivity
  · rw [div_le_iff₀ (by norm_num : (0:ℚ) < 10)]
    have : ((roundHalfEven q : ℚ)) ≤ ((10 * (P.num_atoms - 1) : ℕ) : ℚ) := by
      exact_mod_cast hhi
    push_cast at this ⊢
    linarith

lemma bucket_bounds (P : CatParams) (reward done : ℚ) (j : ℕ)
    (hN : 2 ≤ P.num_atoms) (hv : P.vmin < P.vmax) :
    0 ≤ lowerBound P reward done j ∧
      lowerBound P reward done j ≤ upperBound P reward done j ∧
      upperBound P reward done j ≤ (P.num_atoms : ℤ) - 1 := by
  obtain ⟨h1, h2⟩ := bRounded_mem P reward done j hN hv
  refine ⟨?_, Int.floor_le_ceil _, ?_⟩
  · exact Int.le_floor.mpr (by exact_mod_cast h1)
  · apply Int.ceil_le.mpr
    have : ((P.num_atoms - 1 : ℕ) : ℚ) = (((P.num_atoms : ℤ) - 1 : ℤ) : ℚ) := by
      have : (1 : ℕ) ≤ P.num_atoms := by omega
      push_cast [Nat.cast_sub this]
      ring
    rw [← this]
    exact h2

lemma mass_split (P : CatParams) (reward done : ℚ) (probs : ℕ → ℚ) (j : ℕ) :
    mLower P reward done probs j + mUpper P reward done probs j = probs j := by
  unfold mLower mUpper
  by_cases h : lowerBound P reward done j = upperBound P reward done j
  · rw [if_pos h, h]
    ring
  · have h1 : lowerBound P reward done j ≤ upperBound P reward done j :=
      Int.floor_le_ceil _
    have h2 : upperBound P reward done j ≤ lowerBound P reward done j + 1 :=
      Int.ceil_le_floor_add_one _
    have h3 : upperBound P reward done j = lowerBound P reward done j + 1 := by omega
    rw [if_neg h, h3]
    push_cast
    ring

lemma mLower_nonneg (P : CatParams) (reward done : ℚ) (probs : ℕ → ℚ) (j : ℕ)
    (hp : 0 ≤ probs j) : 0 ≤ mLower P reward done probs j := by
  unfold mLower
  apply mul_nonneg _ hp
  have hb : bRounded P reward done j ≤ (upperBound P reward done j : ℚ) :=
    Int.le_ceil _
  split <;> linarith

lemma mUpper_nonneg (P : CatParams) (reward done : ℚ) (probs : ℕ → ℚ) (j : ℕ)
    (hp : 0 ≤ probs j) : 0 ≤ mUpper P reward done probs j := by
  unfold mUpper
  apply mul_nonneg _ hp
  have hb : (lowerBound P reward done j : ℚ) ≤ bRounded P reward done j :=
    Int.floor_le _
  linarith

lemma sum_indicator_intCast (N : ℕ) (k : ℤ) (h0 : 0 ≤ k) (hN : k < (N : ℤ))
    (c : ℚ) : (∑ i ∈ Finset.range N, if k = (i : ℤ) then c else 0) = c := by
  obtain ⟨m, rfl⟩ : ∃ m : ℕ, k = (m : ℤ) := ⟨k.toNat, (Int.toNat_of_nonneg h0).symm⟩
  have hm : m < N := by exact_mod_cast hN
  have : ∀ i ∈ Finset.range N, (if (m : ℤ) = (i : ℤ) then c else 0) =
      (if m = i then c else 0) := by
    intro i _
    by_cases hmi : m = i
    · rw [if_pos hmi, if_pos (by exact_mod_cast hmi)]
    · rw [if_neg hmi, if_neg (by exact_mod_cast hmi)]
  rw [Finset.sum_congr rfl this, Finset.sum_ite_eq]
  rw [if_pos (Finset.mem_range.mpr hm)]

lemma categorical_sum_eq (P : CatParams) (reward done : ℚ) (probs : ℕ → ℚ)
    (hN : 2 ≤ P.num_atoms) (hv : P.vmin < P.vmax) :
    ∑ i ∈ Finset.range P.num_atoms, categorical P reward done probs i =
      ∑ j ∈ Finset.range P.num_atoms, probs j := by
  unfold categorical
  rw [Finset.sum_comm]
  apply Finset.sum_congr rfl
  intro j _
  obtain ⟨hl0, hlu, huN⟩ := bucket_bounds P reward done j hN hv
  rw [Finset.sum_add_distrib,
    sum_indicator_intCast _ _ hl0 (by omega) _,
    sum_indicator_intCast _ _ (le_trans hl0 hlu) (by omega) _]
  exact mass_split P reward done probs j

lemma categorical_nonneg (P : CatParams) (reward done : ℚ) (probs : ℕ → ℚ)
    (hnn : ∀ j < P.num_atoms, 0 ≤ probs j) (i : ℕ) :
    0 ≤ categorical P reward done probs i := by
  unfold categorical
  apply Finset.sum_nonneg
  intro j hj
  have hp : 0 ≤ probs j := hnn j (Finset.mem_range.mp hj)
  have h1 : (0:ℚ) ≤ if lowerBound P reward done j = (i : ℤ)
      then mLower P reward done probs j else 0 := by
    split
    · exact mLower_nonneg P reward done probs j hp
    · exact le_refl 0
  have h2 : (0:ℚ) ≤ if upperBound P reward done j = (i : ℤ)
      then mUpper P reward done probs j else 0 := by
    split
    · exact mUpper_nonneg P reward done probs j hp
    · exact le_refl 0
  linarith

/-- C1: for any sample whose input histogram is non-negative and sums to 1,
and any reward and done value, the categorical projection splits each atom's
mass exactly between its floor and ceiling buckets (`m_lower + m_upper`
equals that atom's input mass, the floor = ceiling case included), and the
projected histogram is non-negative in every atom and sums to 1. -/
theorem categorical_mass_conservation (P : CatParams) (reward done : ℚ)
    (probs : ℕ → ℚ) (hN : 2 ≤ P.num_atoms) (hv : P.vmin < P.vmax)
    (hnn : ∀ j < P.num_atoms, 0 ≤ probs j)
    (hsum : ∑ j ∈ Finset.range P.num_atoms, probs j = 1) :
    (∀ j < P.num_atoms,
      mLower P reward done probs j + mUpper P reward done probs j = probs j) ∧
    (∀ i, 0 ≤ categorical P reward done probs i) ∧
    ∑ i ∈ Finset.range P.num_atoms, categorical P reward done probs i = 1 := by
  refine ⟨fun j _ => mass_split P reward done probs j,
    categorical_nonneg P reward done probs hnn, ?_⟩
  rw [categorical_sum_eq P reward done probs hN hv, hsum]

/-- A concrete 3-atom histogram used by witnesses: (1/2, 1/4, 1/4). -/
def witnessHist (j : ℕ) : ℚ :=
  if j = 0 then 1/2 else if j = 1 then 1/4 else if j = 2 then 1/4 else 0

/-- Witness for C1: a concrete 3-atom histogram, reward 1/3, done 0. -/
theorem categorical_mass_conservation_witness :
    (2 ≤ 3 ∧ (0:ℚ) < 1 ∧ (∀ j < 3, 0 ≤ witnessHist j) ∧
      ∑ j ∈ Finset.range 3, witnessHist j = 1) ∧
    ((∀ j < 3,
      mLower ⟨0, 1, 3, 9/10, 2⟩ (1/3) 0 witnessHist j +
        mUpper ⟨0, 1, 3, 9/10, 2⟩ (1/3) 0 witnessHist j = witnessHist j) ∧
    (∀ i, 0 ≤ categorical ⟨0, 1, 3, 9/10, 2⟩ (1/3) 0 witnessHist i) ∧
    ∑ i ∈ Finset.range 3, categorical ⟨0, 1, 3, 9/10, 2⟩ (1/3) 0 witnessHist i = 1) :=
  ⟨⟨by norm_num, by norm_num,
      by intro j hj; interval_cases j <;> norm_num [witnessHist],
      by norm_num [Finset.sum_range_succ, witnessHist]⟩,
    categorical_mass_conservation ⟨0, 1, 3, 9/10, 2⟩ (1/3) 0 witnessHist
      (by norm_num) (by norm_num)
      (by intro j hj; interval_cases j <;> norm_num [witnessHist])
      (by norm_num [Finset.sum_range_succ, witnessHist])⟩

-- ## Terminal samples (done = 1)

lemma projectedAtom_done_one (P : CatParams) (reward : ℚ) (j : ℕ) :
    projectedAtom P reward 1 j = reward := by
  unfold projectedAtom
  ring

lemma bRounded_done_one_const (P : CatParams) (reward : ℚ) (j : ℕ) :
    bRounded P reward 1 j = bRounded P reward 1 0 := by
  unfold bRounded bFrac clampedAtom
  rw [projectedAtom_done_one, projectedAtom_done_one]

lemma lowerBound_done_one_const (P : CatParams) (reward : ℚ) (j : ℕ) :
    lowerBound P reward 1 j = lowerBound P reward 1 0 := by
  unfold lowerBound
  rw [bRounded_done_one_const]

lemma upperBound_done_one_const (P : CatParams) (reward : ℚ) (j : ℕ) :
    upperBound P reward 1 j = upperBound P reward 1 0 := by
  unfold upperBound
  rw [bRounded_done_one_const]

lemma categorical_done_one (P : CatParams) (reward : ℚ) (probs : ℕ → ℚ) (i : ℕ) :
    categorical P reward 1 probs i =
      ((if lowerBound P reward 1 0 = (i : ℤ) then
          ((upperBound P reward 1 0 : ℚ) +
            (if lowerBound P reward 1 0 = upperBound P reward 1 0 then 1 else 0) -
            bRounded P reward 1 0) else 0) +
       (if upperBound P reward 1 0 = (i : ℤ) then
          (bRounded P reward 1 0 - (lowerBound P reward 1 0 : ℚ)) else 0)) *
      ∑ j ∈ Finset.range P.num_atoms, probs j := by
  unfold categorical
  rw [Finset.mul_sum]
  apply Finset.sum_congr rfl
  intro j _
  unfold mLower mUpper
  rw [bRounded_done_one_const, lowerBound_done_one_const, upperBound_done_one_const]
  rw [add_mul, ite_mul, ite_mul]
  simp

/-- C2: for a terminal sample (`done = 1`) with a fixed reward, the projected
histogram is the same for any two non-negative input histograms summing to 1:
the projection depends only on the reward, never on the input histogram's
shape. -/
theorem categorical_terminal_independence (P : CatParams) (reward : ℚ)
    (probs1 probs2 : ℕ → ℚ)
    (hnn1 : ∀ j < P.num_atoms, 0 ≤ probs1 j)
    (hnn2 : ∀ j < P.num_atoms, 0 ≤ probs2 j)
    (hsum1 : ∑ j ∈ Finset.range P.num_atoms, probs1 j = 1)
    (hsum2 : ∑ j ∈ Finset.range P.num_atoms, probs2 j = 1) :
    ∀ i, categorical P reward 1 probs1 i = categorical P reward 1 probs2 i := by
  intro i
  rw [categorical_done_one, categorical_done_one, hsum1, hsum2]

/-- A second concrete 3-atom histogram for witnesses: point mass at atom 0. -/
def witnessHistPoint (j : ℕ) : ℚ := if j = 0 then 1 else 0

/-- Witness for C2: two different concrete 3-atom histograms, reward 1/3. -/
theorem categorical_terminal_independence_witness :
    ((∀ j < 3, 0 ≤ witnessHist j) ∧ (∀ j < 3, 0 ≤ witnessHistPoint j) ∧
      ∑ j ∈ Finset.range 3, witnessHist j = 1 ∧
      ∑ j ∈ Finset.range 3, witnessHistPoint j = 1) ∧
    (∀ i, categorical ⟨0, 1, 3, 9/10, 2⟩ (1/3) 1 witnessHist i =
      categorical ⟨0, 1, 3, 9/10, 2⟩ (1/3) 1 witnessHistPoint i) :=
  ⟨⟨by intro j hj; interval_cases j <;> norm_num [witnessHist],
    by intro j hj; interval_cases j <;> norm_num [witnessHistPoint],
    by norm_num [Finset.sum_range_succ, witnessHist],
    by norm_num [Finset.sum_range_succ, witnessHistPoint]⟩,
   categorical_terminal_independence ⟨0, 1, 3, 9/10, 2⟩ (1/3)
     witnessHist witnessHistPoint
     (by intro j hj; interval_cases j <;> norm_num [witnessHist])
     (by intro j hj; interval_cases j <;> norm_num [witnessHistPoint])
     (by norm_num [Finset.sum_range_succ, witnessHist])
     (by norm_num [Finset.sum_range_succ, witnessHistPoint])⟩

-- ## Identity shift (reward 0, gamma 1, rollout 0, done 0)

lemma atomVal_eq (P : CatParams) (j : ℕ) :
    atomVal P j = P.vmin + j * delta_z P := rfl

lemma atomVal_mem (P : CatParams) (j : ℕ) (hj : j < P.num_atoms)
    (hN : 2 ≤ P.num_atoms) (hv : P.vmin < P.vmax) :
    P.vmin ≤ atomVal P j ∧ atomVal P j ≤ P.vmax := by
  have hdz := delta_z_pos P hN hv
  rw [atomVal_eq]
  constructor
  · have : 0 ≤ (j : ℚ) * delta_z P :=
      mul_nonneg (Nat.cast_nonneg j) (le_of_lt hdz)
    linarith
  · have hj' : (j : ℚ) ≤ ((P.num_atoms - 1 : ℕ) : ℚ) :=
      Nat.cast_le.mpr (by omega)
    have hfull : ((P.num_atoms - 1 : ℕ) : ℚ) * delta_z P = P.vmax - P.vmin := by
      have hd : ((P.num_atoms - 1 : ℕ) : ℚ) ≠ 0 := by
        have : (1 : ℕ) ≤ P.num_atoms - 1 := by omega
        positivity
      have h2N : (2 : ℚ) ≤ (P.num_atoms : ℚ) := by exact_mod_cast hN
      unfold delta_z
      field_simp
      rw [mul_comm]
      exact mul_div_cancel_right₀ _ (by linarith : (P.num_atoms : ℚ) - 1 ≠ 0)
    have := mul_le_mul_of_nonneg_right hj' (le_of_lt hdz)
    linarith

lemma bRounded_identity (P : CatParams) (j : ℕ) (hj : j < P.num_atoms)
    (hN : 2 ≤ P.num_atoms) (hv : P.vmin < P.vmax) (hr : P.rollout = 0) :
    bRounded P 0 0 j = (j : ℚ) := by
  have hdz0 : delta_z P ≠ 0 := ne_of_gt (delta_z_pos P hN hv)
  have hproj : projectedAtom P 0 0 j = atomVal P j := by
    unfold projectedAtom
    rw [hr]
    ring
  obtain ⟨hge, hle⟩ := atomVal_mem P j hj hN hv
  have hclamp : clampedAtom P 0 0 j = atomVal P j := by
    unfold clampedAtom
    rw [hproj, max_eq_left hge, min_eq_left hle]
  have hb : bFrac P 0 0 j = (j : ℚ) := by
    unfold bFrac
    rw [hclamp, atomVal_eq, add_sub_cancel_left, mul_div_cancel_right₀ _ hdz0]
  unfold bRounded
  rw [hb]
  have h10 : (j : ℚ) * 10 = ((10 * j : ℤ) : ℚ) := by
    push_cast
    ring
  rw [h10, roundHalfEven_intCast]
  push_cast
  rw [mul_comm, mul_div_assoc]
  norm_num

/-- C3: with `reward = 0`, `gamma = 1`, `rollout = 0` and `done = 0`, each
shifted atom re-buckets exactly onto its own index (the rounded fractional
bucket equals the atom index, so floor = ceiling) and the projection
returns the input histogram unchanged. -/
theorem categorical_identity_shift (P : CatParams) (probs : ℕ → ℚ)
    (hN : 2 ≤ P.num_atoms) (hv : P.vmin < P.vmax)
    (hg : P.gamma = 1) (hr : P.rollout = 0) :
    (∀ j < P.num_atoms, bRounded P 0 0 j = (j : ℚ) ∧
      lowerBound P 0 0 j = upperBound P 0 0 j) ∧
    (∀ i < P.num_atoms, categorical P 0 0 probs i = probs i) := by
  have hb : ∀ j < P.num_atoms, bRounded P 0 0 j = (j : ℚ) :=
    fun j hj => bRounded_identity P j hj hN hv hr
  have hl : ∀ j < P.num_atoms, lowerBound P 0 0 j = (j : ℤ) := by
    intro j hj
    unfold lowerBound
    rw [hb j hj, Int.floor_natCast]
  have hu : ∀ j < P.num_atoms, upperBound P 0 0 j = (j : ℤ) := by
    intro j hj
    unfold upperBound
    rw [hb j hj, Int.ceil_natCast]
  refine ⟨fun j hj => ⟨hb j hj, by rw [hl j hj, hu j hj]⟩, ?_⟩
  intro i hi
  unfold categorical
  have step : ∀ j ∈ Finset.range P.num_atoms,
      ((if lowerBound P 0 0 j = (i : ℤ) then mLower P 0 0 probs j else 0) +
       (if upperBound P 0 0 j = (i : ℤ) then mUpper P 0 0 probs j else 0)) =
      (if j = i then probs j else 0) := by
    intro j hjmem
    have hj := Finset.mem_range.mp hjmem
    have hml : mLower P 0 0 probs j = probs j := by
      unfold mLower
      rw [hb j hj, hl j hj, hu j hj, if_pos rfl]
      push_cast
      ring
    have hmu : mUpper P 0 0 probs j = 0 := by
      unfold mUpper
      rw [hb j hj, hl j hj]
      push_cast
      ring
    rw [hl j hj, hu j hj, hml, hmu]
    by_cases hji : j = i
    · rw [if_pos (by exact_mod_cast congrArg (Nat.cast : ℕ → ℤ) hji),
        if_pos (by exact_mod_cast congrArg (Nat.cast : ℕ → ℤ) hji), if_pos hji]
      ring
    · rw [if_neg (by exact_mod_cast fun h => hji (Nat.cast_injective h)),
        if_neg (by exact_mod_cast fun h => hji (Nat.cast_injective h)), if_neg hji]
      ring
  rw [Finset.sum_congr rfl step, Finset.sum_ite_eq']
  rw [if_pos (Finset.mem_range.mpr hi)]

/-- Witness for C3: a concrete 3-atom histogram and parameters with
`gamma = 1`, `rollout = 0`. -/
theorem categorical_identity_shift_witness :
    (2 ≤ 3 ∧ (0:ℚ) < 1) ∧
    ((∀ j < 3, bRounded ⟨0, 1, 3, 1, 0⟩ 0 0 j = (j : ℚ) ∧
      lowerBound ⟨0, 1, 3, 1, 0⟩ 0 0 j = upperBound ⟨0, 1, 3, 1, 0⟩ 0 0 j) ∧
    (∀ i < 3, categorical ⟨0, 1, 3, 1, 0⟩ 0 0 witnessHist i = witnessHist i)) :=
  ⟨⟨by norm_num, by norm_num⟩,
   categorical_identity_shift ⟨0, 1, 3, 1, 0⟩ witnessHist
     (by norm_num) (by norm_num) rfl rfl⟩

/-- C5: the scatter indices `lower_bound`/`upper_bound` computed for every
atom of every sample are integers inside `[0, num_atoms - 1]`: clamping to
`[vmin, vmax]` before bucketing, then one-decimal rounding, floor and
ceiling can never leave the histogram, so `index_add_` stays in bounds. -/
theorem scatter_indices_in_range (P : CatParams) (reward done : ℚ)
    (hN : 2 ≤ P.num_atoms) (hv : P.vmin < P.vmax) :
    ∀ j < P.num_atoms,
      0 ≤ lowerBound P reward done j ∧
      lowerBound P reward done j ≤ upperBound P reward done j ∧
      upperBound P reward done j ≤ (P.num_atoms : ℤ) - 1 :=
  fun j _ => bucket_bounds P reward done j hN hv

/-- Witness for C5: an off-support reward (5, far above `vmax = 1`) and a
non-terminal sample still scatter inside the histogram. -/
theorem scatter_indices_in_range_witness :
    (2 ≤ 3 ∧ (0:ℚ) < 1) ∧
    (∀ j < 3,
      0 ≤ lowerBound ⟨0, 1, 3, 9/10, 2⟩ 5 0 j ∧
      lowerBound ⟨0, 1, 3, 9/10, 2⟩ 5 0 j ≤ upperBound ⟨0, 1, 3, 9/10, 2⟩ 5 0 j ∧
      upperBound ⟨0, 1, 3, 9/10, 2⟩ 5 0 j ≤ (3 : ℤ) - 1) :=
  ⟨⟨by norm_num, by norm_num⟩,
   scatter_indices_in_range ⟨0, 1, 3, 9/10, 2⟩ 5 0 (by norm_num) (by norm_num)⟩

-- ## Exploration annealing (the `e` property, agent.py lines 169-196)

/-- The `e` property of `MAD4PG_Net`: with `ylow = e_min`, `yhigh = _e`
(the configured start value), `xlow = 0`, `xhigh = anneal_max`,
`steep_mult = 8`, it computes
`steepness = 8 / (xhigh - xlow)`, `offset = (xhigh + xlow) / 2`,
`midpoint = yhigh - ylow`, clips the running-average score to
`[0, xhigh]` and returns `ylow + midpoint / (1 + exp(steepness * (x - offset)))`.
Embedded over `ℝ` because the source uses `np.exp`. -/
noncomputable def eRate (e_min e_start anneal_max score : ℝ) : ℝ :=
  let ylow := e_min
  let yhigh := e_start
  let xlow : ℝ := 0
  let xhigh := anneal_max
  let steepness := 8 / (xhigh - xlow)
  let offset := (xhigh + xlow) / 2
  let midpoint := yhigh - ylow
  let x := min (max score 0) xhigh
  ylow + midpoint / (1 + Real.exp (steepness * (x - offset)))

lemma eRate_eq (e_min e_start anneal_max score : ℝ) :
    eRate e_min e_start anneal_max score =
      e_min + (e_start - e_min) /
        (1 + Real.exp (8 / (anneal_max - 0) *
          (min (max score 0) anneal_max - (anneal_max + 0) / 2))) := rfl

lemma eRate_antitone_core (e_min e_start anneal_max : ℝ)
    (h2 : e_min < e_start) (h3 : 0 < anneal_max) (x y : ℝ) (hxy : x ≤ y) :
    eRate e_min e_start anneal_max y ≤ eRate e_min e_start anneal_max x := by
  rw [eRate_eq, eRate_eq]
  have hclip : min (max x 0) anneal_max ≤ min (max y 0) anneal_max :=
    min_le_min (max_le_max hxy (le_refl 0)) (le_refl _)
  have hs : (0:ℝ) < 8 / (anneal_max - 0) := by
    rw [sub_zero]
    positivity
  have harg : 8 / (anneal_max - 0) * (min (max x 0) anneal_max -
      (anneal_max + 0) / 2) ≤ 8 / (anneal_max - 0) *
      (min (max y 0) anneal_max - (anneal_max + 0) / 2) := by
    apply mul_le_mul_of_nonneg_left _ (le_of_lt hs)
    linarith
  have hexp := Real.exp_le_exp.mpr harg
  have hd1 : (0:ℝ) < 1 + Real.exp (8 / (anneal_max - 0) *
      (min (max x 0) anneal_max - (anneal_max + 0) / 2)) := by
    positivity
  have hdle : 1 + Real.exp (8 / (anneal_max - 0) *
      (min (max x 0) anneal_max - (anneal_max + 0) / 2)) ≤
      1 + Real.exp (8 / (anneal_max - 0) *
      (min (max y 0) anneal_max - (anneal_max + 0) / 2)) := by linarith
  have := div_le_div_of_nonneg_left (by linarith : (0:ℝ) ≤ e_start - e_min)
    hd1 hdle
  linarith

lemma eRate_bounds_core (e_min e_start anneal_max : ℝ) (h2 : e_min < e_start)
    (s : ℝ) : e_min < eRate e_min e_start anneal_max s ∧
      eRate e_min e_start anneal_max s ≤ e_start := by
  rw [eRate_eq]
  set t := 8 / (anneal_max - 0) * (min (max s 0) anneal_max -
    (anneal_max + 0) / 2) with ht
  have hex : 0 < Real.exp t := Real.exp_pos t
  constructor
  · have : 0 < (e_start - e_min) / (1 + Real.exp t) :=
      div_pos (by linarith) (by linarith)
    linarith
  · have h1 : (e_start - e_min) / (1 + Real.exp t) ≤ (e_start - e_min) / 1 :=
      div_le_div_of_nonneg_left (by linarith) one_pos (by linarith)
    rw [div_one] at h1
    linarith

lemma eRate_clamp_high (e_min e_start anneal_max : ℝ) (h3 : 0 < anneal_max)
    (s : ℝ) (hs : anneal_max ≤ s) :
    eRate e_min e_start anneal_max s = eRate e_min e_start anneal_max anneal_max := by
  rw [eRate_eq, eRate_eq]
  have hA : min (max s 0) anneal_max = anneal_max :=
    min_eq_right (le_trans hs (le_max_left s 0))
  have hB : min (max anneal_max 0) anneal_max = anneal_max := by
    rw [max_eq_left (le_of_lt h3)]
    exact min_self anneal_max
  rw [hA, hB]

lemma eRate_clamp_low (e_min e_start anneal_max : ℝ) (s : ℝ) (hs : s ≤ 0) :
    eRate e_min e_start anneal_max s = eRate e_min e_start anneal_max 0 := by
  rw [eRate_eq, eRate_eq]
  rw [max_eq_right hs, max_self]

/-- C4: with `0 < e_min < e_start` and `anneal_max > 0`, the exploration
rate read from the `e` property is non-increasing in the running-average
score, lies strictly above `e_min` and at or below `e_start` for every
score, and — because the score is clamped to `[0, anneal_max]` — every
score at or above `anneal_max` gives the value at `anneal_max` and every
score at or below `0` gives the value at `0`. -/
theorem exploration_rate_properties (e_min e_start anneal_max : ℝ)
    (h1 : 0 < e_min) (h2 : e_min < e_start) (h3 : 0 < anneal_max) :
    (∀ x y, x ≤ y →
      eRate e_min e_start anneal_max y ≤ eRate e_min e_start anneal_max x) ∧
    (∀ s, e_min < eRate e_min e_start anneal_max s ∧
      eRate e_min e_start anneal_max s ≤ e_start) ∧
    (∀ s, anneal_max ≤ s →
      eRate e_min e_start anneal_max s = eRate e_min e_start anneal_max anneal_max) ∧
    (∀ s, s ≤ 0 →
      eRate e_min e_start anneal_max s = eRate e_min e_start anneal_max 0) :=
  ⟨fun x y hxy => eRate_antitone_core e_min e_start anneal_max h2 h3 x y hxy,
   fun s => eRate_bounds_core e_min e_start anneal_max h2 s,
   fun s hs => eRate_clamp_high e_min e_start anneal_max h3 s hs,
   fun s hs => eRate_clamp_low e_min e_start anneal_max s hs⟩

/-- Witness for C4: `e_min = 1/10`, `e_start = 1/2`, `anneal_max = 4`. -/
theorem exploration_rate_properties_witness :
    ((0:ℝ) < 1/10 ∧ (1:ℝ)/10 < 1/2 ∧ (0:ℝ) < 4) ∧
    ((∀ x y, x ≤ y → eRate (1/10) (1/2) 4 y ≤ eRate (1/10) (1/2) 4 x) ∧
    (∀ s, (1:ℝ)/10 < eRate (1/10) (1/2) 4 s ∧ eRate (1/10) (1/2) 4 s ≤ 1/2) ∧
    (∀ s, (4:ℝ) ≤ s → eRate (1/10) (1/2) 4 s = eRate (1/10) (1/2) 4 4) ∧
    (∀ s, s ≤ (0:ℝ) → eRate (1/10) (1/2) 4 s = eRate (1/10) (1/2) 4 0)) :=
  ⟨⟨by norm_num, by norm_num, by norm_num⟩,
   exploration_rate_properties (1/10) (1/2) 4
     (by norm_num) (by norm_num) (by norm_num)⟩

-- ## Target-network updates (agent.py lines 227-243)

/-- `_soft_update`: for each pair of parameter tensors (zipped in order),
`t_param.data.copy_(tau * param.data + (1 - tau) * t_param.data)`
(agent.py line 234), flattened to a list of scalar parameters. -/
def soft_update (tau : ℚ) (active target : List ℚ) : List ℚ :=
  List.zipWith (fun p t => tau * p + (1 - tau) * t) active target

/-- `_hard_update`: `target.load_state_dict(active.state_dict())`
(agent.py line 243) seen on the flat parameter lists: the target's
parameters are fully overwritten with the active ones. -/
def hard_update (active target : List ℚ) : List ℚ := active

lemma soft_update_one (active target : List ℚ)
    (h : active.length = target.length) :
    soft_update 1 active target = active := by
  induction active generalizing target with
  | nil => rfl
  | cons x xs ih =>
    cases target with
    | nil => simp at h
    | cons y ys =>
      unfold soft_update at ih ⊢
      simp only [List.zipWith_cons_cons]
      have hx : 1 * x + (1 - 1) * y = x := by ring
      rw [hx, ih ys (by simpa using h)]

lemma soft_update_zero (active target : List ℚ)
    (h : active.length = target.length) :
    soft_update 0 active target = target := by
  induction active generalizing target with
  | nil => cases target with
    | nil => rfl
    | cons y ys => simp at h
  | cons x xs ih =>
    cases target with
    | nil => simp at h
    | cons y ys =>
      unfold soft_update at ih ⊢
      simp only [List.zipWith_cons_cons]
      have hy : 0 * x + (1 - 0) * y = y := by ring
      rw [hy, ih ys (by simpa using h)]

/-- C6: on parameter lists of equal length (the two networks share one
architecture), the soft target update with `tau = 1` produces exactly the
hard update's result (target parameters become the active ones), and with
`tau = 0` it leaves every target parameter unchanged. -/
theorem soft_update_extremes (active target : List ℚ)
    (h : active.length = target.length) :
    soft_update 1 active target = hard_update active target ∧
    soft_update 0 active target = target :=
  ⟨soft_update_one active target h, soft_update_zero active target h⟩

/-- Witness for C6: concrete two-parameter networks. -/
theorem soft_update_extremes_witness :
    ([(1:ℚ), 2].length = [(5:ℚ), 7].length) ∧
    (soft_update 1 [(1:ℚ), 2] [(5:ℚ), 7] = hard_update [(1:ℚ), 2] [(5:ℚ), 7] ∧
     soft_update 0 [(1:ℚ), 2] [(5:ℚ), 7] = [(5:ℚ), 7]) :=
  ⟨rfl, soft_update_extremes [(1:ℚ), 2] [(5:ℚ), 7] rfl⟩

-- ## Hard update on named state dicts (C7)

/-- A network's parameters as an ordered, named state dict
(`state_dict()` returns name-to-tensor pairs in registration order). -/
structure NetworkState where
  params : List (String × ℚ)

/-- `load_state_dict`: each of the target's parameters is overwritten by
the value under its own name in the incoming state dict; the target's own
value survives only if the name is absent (strict loading forbids that,
and under the same-architecture hypothesis it never happens). -/
def loadStateDict (target sd : List (String × ℚ)) : List (String × ℚ) :=
  target.map (fun kv =>
    match sd.lookup kv.1 with
    | some v => (kv.1, v)
    | none => kv)

/-- `_hard_update(active, target)`: `target.load_state_dict(active.state_dict())`
mutates only the target; the pair (new active, new target) is returned. -/
def hard_update_nets (active target : NetworkState) : NetworkState × NetworkState :=
  (active, ⟨loadStateDict target.params active.params⟩)

lemma loadStateDict_same_keys (t a : List (String × ℚ))
    (hk : t.map Prod.fst = a.map Prod.fst)
    (hnd : (a.map Prod.fst).Nodup) :
    loadStateDict t a = a := by
  induction t generalizing a with
  | nil =>
    cases a with
    | nil => rfl
    | cons y ys => simp at hk
  | cons x xs ih =>
    cases a with
    | nil => simp at hk
    | cons y ys =>
      simp only [List.map_cons, List.cons.injEq] at hk
      obtain ⟨hxy, htail⟩ := hk
      simp only [List.map_cons, List.nodup_cons] at hnd
      obtain ⟨hy_not, hnd'⟩ := hnd
      unfold loadStateDict
      simp only [List.map_cons]
      have hhead : (match (y :: ys).lookup x.1 with
          | some v => (x.1, v)
          | none => x) = y := by
        rw [hxy]
        cases y with
        | mk yk yv => simp [List.lookup]
      rw [hhead]
      have htail_eq : xs.map (fun kv =>
          match (y :: ys).lookup kv.1 with
          | some v => (kv.1, v)
          | none => kv) = loadStateDict xs ys := by
        unfold loadStateDict
        apply List.map_congr_left
        intro kv hkv
        have hmem : kv.1 ∈ ys.map Prod.fst := by
          rw [← htail]
          exact List.mem_map_of_mem Prod.fst hkv
        have hne : kv.1 ≠ y.1 := by
          intro hcontra
          exact hy_not (hcontra ▸ hmem)
        have : (y :: ys).lookup kv.1 = ys.lookup kv.1 := by
          cases y with
          | mk yk yv =>
            have hbeq : (kv.1 == yk) = false :=
              beq_eq_false_iff_ne.mpr (by simpa using hne)
            simp [List.lookup, hbeq]
        rw [this]
      rw [htail_eq, ih ys htail hnd']

/-- C7: for any prior target state sharing the active network's parameter
names (strict state-dict loading), immediately after `_hard_update` every
target parameter equals the corresponding active parameter exactly, and
the active network is unchanged by the call. -/
theorem hard_update_copies_params (active target : NetworkState)
    (hk : target.params.map Prod.fst = active.params.map Prod.fst)
    (hnd : (active.params.map Prod.fst).Nodup) :
    (hard_update_nets active target).2.params = active.params ∧
    (hard_update_nets active target).1 = active :=
  ⟨loadStateDict_same_keys target.params active.params hk hnd, rfl⟩

/-- Witness for C7: two concrete two-parameter networks. -/
theorem hard_update_copies_params_witness :
    ([("w", (5:ℚ)), ("b", 7)].map Prod.fst =
      [("w", (1:ℚ)), ("b", 2)].map Prod.fst) ∧
    (([("w", (1:ℚ)), ("b", 2)].map Prod.fst).Nodup) ∧
    ((hard_update_nets ⟨[("w", 1), ("b", 2)]⟩ ⟨[("w", 5), ("b", 7)]⟩).2.params =
      [("w", (1:ℚ)), ("b", 2)] ∧
     (hard_update_nets ⟨[("w", 1), ("b", 2)]⟩ ⟨[("w", 5), ("b", 7)]⟩).1 =
      ⟨[("w", (1:ℚ)), ("b", 2)]⟩) :=
  ⟨by simp, by simp, hard_update_copies_params ⟨[("w", 1), ("b", 2)]⟩
    ⟨[("w", 5), ("b", 7)]⟩ (by simp) (by simp)⟩

-- ## Episode boundary handling (agent.py lines 198-212)

/-- Coordinator state relevant to `new_episode`: the stored running
average and the episode counter. -/
structure CoordState where
  avg_score : ℚ
  episode : ℕ

/-- `np.mean` of a list: sum divided by length (per-sample mean). -/
def npMean (xs : List ℚ) : ℚ := xs.sum / (xs.length : ℚ)

/-- `new_episode(scores)`:
`avg_across = np.clip(len(scores), 1, 50)` (i.e. `min (max len 1) 50`),
`avg_score = np.array(scores[-avg_across:]).mean()`, then `episode += 1`
(agent.py lines 208-212; the replay store's `init_n_step()` call touches
only the external buffer collaborator). -/
def new_episode (st : CoordState) (scores : List ℚ) : CoordState :=
  let avg_across : ℕ := min (max scores.length 1) 50
  { avg_score := npMean (scores.drop (scores.length - avg_across)),
    episode := st.episode + 1 }

/-- The spec's update rule, stated in its own words: the arithmetic mean
of the last `min(episode_count, 50)` episode scores, where
`episode_count` is the number of scores seen so far. -/
def specTrailingMean (scores : List ℚ) : ℚ :=
  let k := min scores.length 50
  (scores.drop (scores.length - k)).sum / (k : ℚ)

/-- C8: for every non-empty score list, the new-episode handler stores
exactly the mean of the last `min(episode_count, 50)` scores (a capped
trailing window) and increments the episode counter by exactly 1. -/
theorem new_episode_trailing_mean (st : CoordState) (scores : List ℚ)
    (h : scores ≠ []) :
    (new_episode st scores).avg_score = specTrailingMean scores ∧
    (new_episode st scores).episode = st.episode + 1 := by
  have hlen : 1 ≤ scores.length := List.length_pos.mpr h
  constructor
  · unfold new_episode specTrailingMean npMean
    have hclip : min (max scores.length 1) 50 = min scores.length 50 := by
      omega
    rw [hclip]
    have hk : min scores.length 50 ≤ scores.length := min_le_left _ _
    have hdrop : (scores.drop (scores.length - min scores.length 50)).length =
        min scores.length 50 := by
      rw [List.length_drop]
      omega
    simp only [hdrop]
  · rfl

/-- Witness for C8: three concrete episode scores. -/
theorem new_episode_trailing_mean_witness :
    ([(1:ℚ), 2, 3] ≠ []) ∧
    ((new_episode ⟨0, 4⟩ [(1:ℚ), 2, 3]).avg_score =
      specTrailingMean [(1:ℚ), 2, 3] ∧
     (new_episode ⟨0, 4⟩ [(1:ℚ), 2, 3]).episode = 4 + 1) :=
  ⟨by simp, new_episode_trailing_mean ⟨0, 4⟩ [(1:ℚ), 2, 3] (by simp)⟩

-- ## Action selection (agent.py lines 87-98)

/-- `np.clip(a, -1, 1)` applied to one action component. -/
def clipAction (x : ℚ) : ℚ := min (max x (-1)) 1

/-- `MAD4PG_Net.act(obs, training)`: asserts one observation per agent,
runs each agent's actor on its own observation, adds the noise tensor when
`training`, and clips the result to `[-1, 1]` component-wise.  The
assertion failure is modelled as `none`; actors are opaque functions from
one observation to an action vector, and the sampled Gaussian noise enters
as an arbitrary matching matrix. -/
def act {α : Type} (agents : List (α → List ℚ)) (obs : List α)
    (noise : List (List ℚ)) (training : Bool) : Option (List (List ℚ)) :=
  if obs.length = agents.length then
    let actions := (agents.zip obs).map (fun p => p.1 p.2)
    let noised := if training then
        List.zipWith (fun a n => List.zipWith (· + ·) a n) actions noise
      else actions
    some (noised.map (fun row => row.map clipAction))
  else none

/-- C9: with exactly one observation per agent, `act` succeeds and every
component of every returned action lies in `[-1, 1]`, whether or not
training noise is added; with a mismatched observation count it is the
assertion failure, which under the length precondition is unreachable. -/
theorem act_clipped_and_total {α : Type} (agents : List (α → List ℚ))
    (obs : List α) (noise : List (List ℚ)) (training : Bool) :
    (obs.length = agents.length →
      ∃ out, act agents obs noise training = some out ∧
        ∀ row ∈ out, ∀ x ∈ row, -1 ≤ x ∧ x ≤ 1) ∧
    (obs.length ≠ agents.length → act agents obs noise training = none) := by
  constructor
  · intro h
    unfold act
    rw [if_pos h]
    refine ⟨_, rfl, ?_⟩
    intro row hrow x hx
    simp only [List.mem_map] at hrow
    obtain ⟨r, _, hr⟩ := hrow
    rw [← hr] at hx
    simp only [List.mem_map] at hx
    obtain ⟨z, _, hz⟩ := hx
    rw [← hz]
    unfold clipAction
    constructor
    · exact le_min (le_max_right _ _) (by norm_num)
    · exact min_le_right _ _
  · intro h
    unfold act
    rw [if_neg h]

/-- Witness for C9: one agent whose actor outputs 5 (out of range), one
observation, noise 1, training on; the output is defined and clipped. -/
theorem act_clipped_and_total_witness :
    ([(0:ℚ)].length = [fun _ : ℚ => [(5:ℚ)]].length) ∧
    (∃ out, act [fun _ : ℚ => [(5:ℚ)]] [(0:ℚ)] [[(1:ℚ)]] true = some out ∧
      ∀ row ∈ out, ∀ x ∈ row, -1 ≤ x ∧ x ≤ 1) :=
  ⟨rfl, (act_clipped_and_total [fun _ : ℚ => [(5:ℚ)]] [(0:ℚ)]
    [[(1:ℚ)]] true).1 rfl⟩

-- ## Warm-up fill (agent.py lines 141-166)

/-- Modelled from the spec: the state visible to `initialize_memory` —
the replay store's current length (`ReplayBuffer` lives in `buffers.py`,
outside the embedded source) and a counter of learning calls used to
express "no learning side effects".  The environment collaborator's
observations are abstracted into the loop-body step function. -/
structure FillState where
  memlen : ℕ
  learnCalls : ℕ

/-- The `while self.memlen < pretrain_length` loop of `initialize_memory`:
one iteration takes a uniform random action, steps the environment, stores
the transition and resets the n-step accumulator on termination — all
abstracted into `stepStore`, which by the claim's own assumption
eventually increases the replay store's length (`hstep`). -/
def initialize_memory (stepStore : FillState → FillState)
    (hstep : ∀ s, s.memlen < (stepStore s).memlen)
    (pretrain_length : ℕ) (s : FillState) : FillState :=
  if h : s.memlen < pretrain_length then
    initialize_memory stepStore hstep pretrain_length (stepStore s)
  else s
termination_by pretrain_length - s.memlen
decreasing_by
  have := hstep s
  omega

/-- C10: assuming each stored transition (eventually) increases the replay
store's length, the warm-up fill terminates (it is a total function here,
defined by well-founded recursion on that assumption) with the replay
store holding at least `pretrain_length` transitions, and it performs no
learning call (the learn counter is exactly as it started, so every store
happens before any learning). -/
theorem initialize_memory_fills (stepStore : FillState → FillState)
    (hstep : ∀ s, s.memlen < (stepStore s).memlen)
    (hlearn : ∀ s, (stepStore s).learnCalls = s.learnCalls)
    (pretrain_length : ℕ) (s : FillState) :
    pretrain_length ≤
      (initialize_memory stepStore hstep pretrain_length s).memlen ∧
    (initialize_memory stepStore hstep pretrain_length s).learnCalls =
      s.learnCalls := by
  suffices H : ∀ k s, pretrain_length - s.memlen ≤ k →
      pretrain_length ≤
        (initialize_memory stepStore hstep pretrain_length s).memlen ∧
      (initialize_memory stepStore hstep pretrain_length s).learnCalls =
        s.learnCalls from H _ s le_rfl
  intro k
  induction k with
  | zero =>
    intro s hk
    have hge : ¬ s.memlen < pretrain_length := by omega
    rw [initialize_memory, dif_neg hge]
    exact ⟨by omega, rfl⟩
  | succ k ih =>
    intro s hk
    by_cases hlt : s.memlen < pretrain_length
    · rw [initialize_memory, dif_pos hlt]
      have hinc := hstep s
      have hrec := ih (stepStore s) (by omega)
      exact ⟨hrec.1, hrec.2.trans (hlearn s)⟩
    · rw [initialize_memory, dif_neg hlt]
      exact ⟨by omega, rfl⟩

/-- Witness for C10: the concrete step that stores one transition per
iteration, starting from an empty store, with target length 3. -/
theorem initialize_memory_fills_witness :
    (∀ s : FillState, s.memlen < (⟨s.memlen + 1, s.learnCalls⟩ : FillState).memlen) ∧
    (∀ s : FillState, (⟨s.memlen + 1, s.learnCalls⟩ : FillState).learnCalls =
      s.learnCalls) ∧
    (3 ≤ (initialize_memory (fun s => ⟨s.memlen + 1, s.learnCalls⟩)
        (fun s => Nat.lt_succ_self s.memlen) 3 ⟨0, 0⟩).memlen ∧
     (initialize_memory (fun s => ⟨s.memlen + 1, s.learnCalls⟩)
        (fun s => Nat.lt_succ_self s.memlen) 3 ⟨0, 0⟩).learnCalls = 0) :=
  ⟨fun s => Nat.lt_succ_self s.memlen, fun s => rfl,
   initialize_memory_fills (fun s => ⟨s.memlen + 1, s.learnCalls⟩)
     (fun s => Nat.lt_succ_self s.memlen) (fun s => rfl) 3 ⟨0, 0⟩⟩
